import Mathlib

/-!
Verification of the local-ancestry interval-squashing routine from the
tree-sequence analysis notebook (the `squashed_ancestry_table` cell of
`4-analyses-with-tree-sequences.ipynb`).

The cell builds a table of raw ancestry records `(child, left, right,
population)`, sorts it in place by `['child', 'left']`, and then runs a
single pass that either extends the last emitted segment (when the next
row starts exactly where the last emitted segment ends, with the same
population and the same child) or emits the row as a new segment:

    local_ancestry.sort_values(by=['child','left'], inplace=True, ignore_index=True)
    for ind, row in local_ancestry.iterrows():
        if ind > 0 and row['left']==new_right[-1] and row['population'] == new_population[-1] \
                and row['child'] == new_sample[-1]:
            new_right[-1] = row['right']
        else:
            append row to (new_sample, new_left, new_right, new_population)

Positions are genomic coordinates (floats in the source, with exact
comparison used by the loop); we model them as rationals, which carry the
same decidable linear order. Child and population identifiers are the
non-negative integers the cell casts them to (`int(i)`, `int(p)`).
-/

namespace AncestrySquash

/-- A raw local-ancestry record: one row of the `local_ancestry` table,
claiming that on the half-open interval `[left, right)` the sample `child`
descends from ancestral `population`. -/
structure AncestryRecord where
  child : Nat
  left : ℚ
  right : ℚ
  population : Nat
deriving DecidableEq, Repr

/-- The sort key used by `local_ancestry.sort_values(by=['child','left'])`:
lexicographic (non-strict) order on `(child, left)`. -/
def recLE (a b : AncestryRecord) : Prop :=
  a.child < b.child ∨ (a.child = b.child ∧ a.left ≤ b.left)

/-- Strict lexicographic order on the `(child, left)` sort key. -/
def recLT (a b : AncestryRecord) : Prop :=
  a.child < b.child ∨ (a.child = b.child ∧ a.left < b.left)

instance : DecidableRel recLE := fun a b =>
  decidable_of_iff (a.child < b.child ∨ (a.child = b.child ∧ a.left ≤ b.left)) Iff.rfl

instance : DecidableRel recLT := fun a b =>
  decidable_of_iff (a.child < b.child ∨ (a.child = b.child ∧ a.left < b.left)) Iff.rfl

instance : IsTotal AncestryRecord recLE where
  total a b := by
    unfold recLE
    rcases Nat.lt_trichotomy a.child b.child with h | h | h
    · exact Or.inl (Or.inl h)
    · rcases le_total a.left b.left with h' | h'
      · exact Or.inl (Or.inr ⟨h, h'⟩)
      · exact Or.inr (Or.inr ⟨h.symm, h'⟩)
    · exact Or.inr (Or.inl h)

instance : IsTrans AncestryRecord recLE where
  trans a b c hab hbc := by
    unfold recLE at *
    rcases hab with h1 | ⟨e1, l1⟩ <;> rcases hbc with h2 | ⟨e2, l2⟩
    · exact Or.inl (h1.trans h2)
    · exact Or.inl (e2 ▸ h1)
    · exact Or.inl (e1 ▸ h2)
    · exact Or.inr ⟨e1.trans e2, l1.trans l2⟩

instance : IsAntisymm AncestryRecord recLT where
  antisymm a b hab hba := by
    unfold recLT at *
    rcases hab with h1 | ⟨e1, l1⟩ <;> rcases hba with h2 | ⟨e2, l2⟩
    · exact absurd (h1.trans h2) (lt_irrefl _)
    · exact absurd h1 (e2 ▸ lt_irrefl _)
    · exact absurd h2 (e1 ▸ lt_irrefl _)
    · exact absurd (l1.trans l2) (lt_irrefl _)

/-- The in-place sort `local_ancestry.sort_values(by=['child','left'])`,
modelled as a sort by the lexicographic key `(child, left)` (a stable sort;
on inputs whose `(child, left)` keys are pairwise distinct every sorting
algorithm produces this same result). -/
def sortRecords (l : List AncestryRecord) : List AncestryRecord :=
  l.insertionSort recLE

/-- One step of the squash loop, carried out with the last emitted segment
(`new_sample[-1], new_left[-1], new_right[-1], new_population[-1]`) held as
the explicit current segment `cur`: when the next row starts exactly at
`cur.right` with the same population and child, the loop mutates
`new_right[-1] = row['right']`, i.e. continues with `cur` extended;
otherwise `cur` is final and the row opens the next segment. -/
def squashGo (cur : AncestryRecord) : List AncestryRecord → List AncestryRecord
  | [] => [cur]
  | row :: rest =>
    if row.left = cur.right ∧ row.population = cur.population ∧ row.child = cur.child then
      squashGo { cur with right := row.right } rest
    else
      cur :: squashGo row rest

/-- The squash loop over the already-sorted table: the first row is always
emitted (the `ind > 0` guard), every later row either extends the last
emitted segment or is emitted itself. -/
def squashSorted : List AncestryRecord → List AncestryRecord
  | [] => []
  | row :: rest => squashGo row rest

/-- The whole `squashed_ancestry_table` computation: sort by
`['child','left']`, then squash. -/
def squash (l : List AncestryRecord) : List AncestryRecord :=
  squashSorted (sortRecords l)

/-- The squash cell acting on program state: `sort_values(..., inplace=True,
ignore_index=True)` replaces the `local_ancestry` table with its sorted
version, and the loop then produces `squashed_ancestry_table` from the
sorted table. The result is the pair (table after the cell, output table). -/
def runSquashCell (local_ancestry : List AncestryRecord) :
    List AncestryRecord × List AncestryRecord :=
  let sorted := sortRecords local_ancestry
  (sorted, squashSorted sorted)

/-- Two records overlap when their half-open intervals intersect. -/
def overlaps (a b : AncestryRecord) : Prop :=
  a.left < b.right ∧ b.left < a.right

instance : DecidableRel overlaps := fun a b =>
  decidable_of_iff (a.left < b.right ∧ b.left < a.right) Iff.rfl

/-- The input contract of the spec: every interval has positive length, and
two records for the same child never overlap. -/
def ValidInput (l : List AncestryRecord) : Prop :=
  (∀ r ∈ l, r.left < r.right) ∧
    l.Pairwise (fun a b => a.child = b.child → ¬ overlaps a b)

instance : DecidablePred ValidInput := fun l => by
  unfold ValidInput; infer_instance

/-- A point `x` of child `c`'s sequence is reported as having ancestry in
population `p` by some record of the table `l`. -/
def covers (l : List AncestryRecord) (c : Nat) (p : Nat) (x : ℚ) : Prop :=
  ∃ r ∈ l, r.child = c ∧ r.population = p ∧ r.left ≤ x ∧ x < r.right

instance (l : List AncestryRecord) (c p : Nat) (x : ℚ) : Decidable (covers l c p x) :=
  decidable_of_iff (∃ r ∈ l, r.child = c ∧ r.population = p ∧ r.left ≤ x ∧ x < r.right)
    Iff.rfl

/-- Two consecutive emitted segments are never in the configuration that the
loop's guard would have merged: the second starting exactly at the first's
end, with the same population and child. -/
def notMergeable (a b : AncestryRecord) : Prop :=
  ¬(b.left = a.right ∧ b.population = a.population ∧ b.child = a.child)

/-- The loop only ever mutates the `right` end of the last emitted segment,
so the head of its output is the current segment with some final `right`. -/
lemma squashGo_shape :
    ∀ (rows : List AncestryRecord) (cur : AncestryRecord),
      ∃ R tail, squashGo cur rows = { cur with right := R } :: tail
  | [], cur => ⟨cur.right, [], rfl⟩
  | row :: rest, cur => by
    by_cases h : row.left = cur.right ∧ row.population = cur.population ∧
        row.child = cur.child
    · obtain ⟨R, tail, hR⟩ := squashGo_shape rest { cur with right := row.right }
      exact ⟨R, tail, by simp only [squashGo, if_pos h]; exact hR⟩
    · exact ⟨cur.right, squashGo row rest, by simp only [squashGo, if_neg h]⟩

/-- Every emitted segment takes its child, left end and population from one
of the rows it came from (only `right` is ever extended). -/
lemma squashGo_mem :
    ∀ (rows : List AncestryRecord) (cur b : AncestryRecord),
      b ∈ squashGo cur rows →
      ∃ x ∈ cur :: rows, b.child = x.child ∧ b.left = x.left ∧
        b.population = x.population
  | [], cur, b, hb => by
    rw [List.mem_singleton.1 hb]
    exact ⟨cur, List.mem_cons_self _ _, rfl, rfl, rfl⟩
  | row :: rest, cur, b, hb => by
    by_cases h : row.left = cur.right ∧ row.population = cur.population ∧
        row.child = cur.child
    · rw [squashGo, if_pos h] at hb
      obtain ⟨x, hx, h1, h2, h3⟩ := squashGo_mem rest { cur with right := row.right } b hb
      rcases List.mem_cons.1 hx with rfl | hx
      · exact ⟨cur, List.mem_cons_self _ _, h1, h2, h3⟩
      · exact ⟨x, List.mem_cons_of_mem _ (List.mem_cons_of_mem _ hx), h1, h2, h3⟩
    · rw [squashGo, if_neg h] at hb
      rcases List.mem_cons.1 hb with rfl | hb
      · exact ⟨b, List.mem_cons_self _ _, rfl, rfl, rfl⟩
      · obtain ⟨x, hx, h1, h2, h3⟩ := squashGo_mem rest row b hb
        exact ⟨x, List.mem_cons_of_mem _ hx, h1, h2, h3⟩

/-- No two consecutive emitted segments are in mergeable position: whenever
the loop emits a new segment, the guard has just failed against the final
state of the previous one. -/
lemma squashGo_chain :
    ∀ (rows : List AncestryRecord) (cur : AncestryRecord),
      List.Chain' notMergeable (squashGo cur rows)
  | [], cur => List.chain'_singleton cur
  | row :: rest, cur => by
    by_cases h : row.left = cur.right ∧ row.population = cur.population ∧
        row.child = cur.child
    · simpa only [squashGo, if_pos h] using
        squashGo_chain rest { cur with right := row.right }
    · have hch := squashGo_chain rest row
      obtain ⟨R, tail, hR⟩ := squashGo_shape rest row
      rw [squashGo, if_neg h, hR]
      rw [hR] at hch
      exact List.Chain'.cons h hch

/-- The key-order relation only looks at `child` and `left`, so it can be
transported along records agreeing on those fields. -/
lemma recLE_of_key (a : AncestryRecord) {b x : AncestryRecord}
    (hc : b.child = x.child) (hl : b.left = x.left) (h : recLE a x) : recLE a b := by
  unfold recLE at *
  rw [hc, hl]
  exact h

/-- The squash pass preserves sortedness by the `(child, left)` key. -/
lemma squashGo_pairwise_le :
    ∀ (rows : List AncestryRecord) (cur : AncestryRecord),
      List.Pairwise recLE (cur :: rows) →
      List.Pairwise recLE (squashGo cur rows)
  | [], cur, _ => List.pairwise_singleton _ _
  | row :: rest, cur, hp => by
    obtain ⟨hcur, hp2⟩ := List.pairwise_cons.1 hp
    by_cases h : row.left = cur.right ∧ row.population = cur.population ∧
        row.child = cur.child
    · rw [squashGo, if_pos h]
      refine squashGo_pairwise_le rest _ (List.pairwise_cons.2 ⟨?_, ?_⟩)
      · exact fun z hz => hcur z (List.mem_cons_of_mem _ hz)
      · exact (List.pairwise_cons.1 hp2).2
    · rw [squashGo, if_neg h]
      refine List.pairwise_cons.2 ⟨?_, squashGo_pairwise_le rest row hp2⟩
      intro b hb
      obtain ⟨x, hx, h1, h2, _⟩ := squashGo_mem rest row b hb
      exact recLE_of_key cur h1 h2 (hcur x hx)

/-- Squashing a list in which no consecutive pair is mergeable changes
nothing. -/
lemma squashGo_of_chain :
    ∀ (rows : List AncestryRecord) (cur : AncestryRecord),
      List.Chain' notMergeable (cur :: rows) →
      squashGo cur rows = cur :: rows
  | [], _, _ => rfl
  | row :: rest, cur, h => by
    obtain ⟨h1, h2⟩ := List.chain'_cons.1 h
    rw [squashGo, if_neg h1, squashGo_of_chain rest row h2]

lemma squashSorted_chain (l : List AncestryRecord) :
    List.Chain' notMergeable (squashSorted l) := by
  cases l with
  | nil => exact List.chain'_nil
  | cons row rest => exact squashGo_chain rest row

lemma squashSorted_of_chain {l : List AncestryRecord}
    (h : List.Chain' notMergeable l) : squashSorted l = l := by
  cases l with
  | nil => rfl
  | cons row rest => exact squashGo_of_chain rest row h

lemma squashSorted_pairwise_le {l : List AncestryRecord}
    (h : List.Pairwise recLE l) : List.Pairwise recLE (squashSorted l) := by
  cases l with
  | nil => exact List.Pairwise.nil
  | cons row rest => exact squashGo_pairwise_le rest row h

/-- The output of the full squash computation is sorted by `(child, left)`. -/
lemma squash_pairwise_le (l : List AncestryRecord) :
    List.Pairwise recLE (squash l) :=
  squashSorted_pairwise_le (List.sorted_insertionSort recLE l)

lemma squash_chain (l : List AncestryRecord) :
    List.Chain' notMergeable (squash l) :=
  squashSorted_chain (sortRecords l)

/-- The invariant carried through the squash pass on a contract-satisfying
sorted table: later records are key-ordered after earlier ones, and within a
child earlier records end no later than later ones begin. -/
def Rrel (a b : AncestryRecord) : Prop :=
  recLE a b ∧ (a.child = b.child → a.right ≤ b.left)

/-- A table whose intervals all have positive length and whose records are
pairwise `Rrel`-related in order. -/
def GoodList (l : List AncestryRecord) : Prop :=
  (∀ r ∈ l, r.left < r.right) ∧ l.Pairwise Rrel

/-- Merging the next row into the current segment preserves the invariant. -/
lemma goodList_merge {cur row : AncestryRecord} {rest : List AncestryRecord}
    (hm : row.left = cur.right ∧ row.population = cur.population ∧
      row.child = cur.child)
    (hg : GoodList (cur :: row :: rest)) :
    GoodList ({ cur with right := row.right } :: rest) := by
  obtain ⟨hlen, hpw⟩ := hg
  obtain ⟨hcur, hpw2⟩ := List.pairwise_cons.1 hpw
  obtain ⟨hrow, hpw3⟩ := List.pairwise_cons.1 hpw2
  constructor
  · intro r hr
    rcases List.mem_cons.1 hr with rfl | hr
    · show cur.left < row.right
      have hc : cur.left ≤ row.left := by
        rcases (hcur row (List.mem_cons_self _ _)).1 with h | ⟨_, h⟩
        · rw [hm.2.2] at h
          exact absurd h (lt_irrefl _)
        · exact h
      have hrr : row.left < row.right := hlen row (by simp)
      exact hc.trans_lt hrr
    · exact hlen r (List.mem_cons_of_mem _ (List.mem_cons_of_mem _ hr))
  · refine List.pairwise_cons.2 ⟨?_, hpw3⟩
    intro z hz
    have h1 : Rrel cur z := hcur z (List.mem_cons_of_mem _ hz)
    have h2 : Rrel row z := hrow z hz
    refine ⟨h1.1, ?_⟩
    intro hcz
    exact h2.2 (hm.2.2.trans hcz)

/-- The squash pass preserves the invariant: its output again consists of
positive-length intervals, pairwise key-ordered and non-overlapping per
child. -/
lemma squashGo_good :
    ∀ (rows : List AncestryRecord) (cur : AncestryRecord),
      GoodList (cur :: rows) → GoodList (squashGo cur rows)
  | [], cur, hg => by
    refine ⟨?_, List.pairwise_singleton _ _⟩
    intro r hr
    rw [List.mem_singleton.1 hr]
    exact hg.1 cur (List.mem_cons_self _ _)
  | row :: rest, cur, hg => by
    by_cases h : row.left = cur.right ∧ row.population = cur.population ∧
        row.child = cur.child
    · rw [squashGo, if_pos h]
      exact squashGo_good rest _ (goodList_merge h hg)
    · rw [squashGo, if_neg h]
      have hg2 : GoodList (row :: rest) :=
        ⟨fun r hr => hg.1 r (List.mem_cons_of_mem _ hr),
          (List.pairwise_cons.1 hg.2).2⟩
      have hout := squashGo_good rest row hg2
      constructor
      · intro r hr
        rcases List.mem_cons.1 hr with rfl | hr
        · exact hg.1 r (List.mem_cons_self _ _)
        · exact hout.1 r hr
      · refine List.pairwise_cons.2 ⟨?_, hout.2⟩
        intro b hb
        obtain ⟨x, hx, hbc, hbl, _⟩ := squashGo_mem rest row b hb
        have hx2 : Rrel cur x := (List.pairwise_cons.1 hg.2).1 x hx
        refine ⟨recLE_of_key cur hbc hbl hx2.1, ?_⟩
        intro hcb
        rw [hbl]
        exact hx2.2 (hcb.trans hbc)

lemma goodList_of_squashSorted {l : List AncestryRecord}
    (hg : GoodList l) : GoodList (squashSorted l) := by
  cases l with
  | nil => exact hg
  | cons row rest => exact squashGo_good rest row hg

/-- On a contract-satisfying input, sorting produces a table satisfying the
squash invariant. -/
lemma sortRecords_good {l : List AncestryRecord} (h : ValidInput l) :
    GoodList (sortRecords l) := by
  obtain ⟨hlen, hpw⟩ := h
  have hperm : List.Perm (sortRecords l) l := List.perm_insertionSort recLE l
  constructor
  · exact fun r hr => hlen r (hperm.mem_iff.1 hr)
  · have hs : List.Pairwise recLE (sortRecords l) :=
      List.sorted_insertionSort recLE l
    have hov : List.Pairwise (fun a b => a.child = b.child → ¬ overlaps a b)
        (sortRecords l) := by
      refine (hperm.pairwise_iff ?_).2 hpw
      intro x y hxy hyx hov
      exact hxy hyx.symm ⟨hov.2, hov.1⟩
    refine (hs.and hov).imp_of_mem ?_
    intro a b ha hb hab
    refine ⟨hab.1, ?_⟩
    intro hc
    by_contra hlt
    push_neg at hlt
    have hal : a.left ≤ b.left := by
      rcases hab.1 with h | ⟨_, h⟩
      · rw [hc] at h
        exact absurd h (lt_irrefl _)
      · exact h
    have hbb : b.left < b.right := hlen b (hperm.mem_iff.1 hb)
    exact hab.2 hc ⟨hal.trans_lt hbb, hlt⟩

lemma squash_good {l : List AncestryRecord} (h : ValidInput l) :
    GoodList (squash l) :=
  goodList_of_squashSorted (sortRecords_good h)

lemma covers_cons {r : AncestryRecord} {l : List AncestryRecord} {c p : Nat}
    {x : ℚ} :
    covers (r :: l) c p x ↔
      (r.child = c ∧ r.population = p ∧ r.left ≤ x ∧ x < r.right) ∨
        covers l c p x := by
  simp [covers]

/-- The squash pass neither loses nor invents ancestry: a point is covered
for a child with a population label by the pass's output exactly when some
incoming row covers it. -/
lemma squashGo_covers :
    ∀ (rows : List AncestryRecord) (cur : AncestryRecord),
      GoodList (cur :: rows) → ∀ (c p : Nat) (x : ℚ),
      (covers (squashGo cur rows) c p x ↔ covers (cur :: rows) c p x)
  | [], _, _, _, _, _ => Iff.rfl
  | row :: rest, cur, hg, c, p, x => by
    by_cases h : row.left = cur.right ∧ row.population = cur.population ∧
        row.child = cur.child
    · rw [squashGo, if_pos h,
        squashGo_covers rest _ (goodList_merge h hg) c p x,
        covers_cons, covers_cons, covers_cons]
      have hcr : cur.right ≤ row.right := by
        have hx := hg.1 row (List.mem_cons_of_mem _ (List.mem_cons_self _ _))
        rw [h.1] at hx
        exact le_of_lt hx
      have hlc : cur.left < cur.right := hg.1 cur (List.mem_cons_self _ _)
      constructor
      · rintro (⟨h1, h2, h3, h4⟩ | hrest)
        · by_cases hx : x < cur.right
          · exact Or.inl ⟨h1, h2, h3, hx⟩
          · push_neg at hx
            refine Or.inr (Or.inl ⟨h.2.2.trans h1, h.2.1.trans h2, ?_, h4⟩)
            rw [h.1]
            exact hx
        · exact Or.inr (Or.inr hrest)
      · rintro (⟨h1, h2, h3, h4⟩ | ⟨h1, h2, h3, h4⟩ | hrest)
        · exact Or.inl ⟨h1, h2, h3, h4.trans_le hcr⟩
        · refine Or.inl ⟨h.2.2.symm.trans h1, h.2.1.symm.trans h2, ?_, h4⟩
          rw [h.1] at h3
          exact le_of_lt (hlc.trans_le h3)
        · exact Or.inr hrest
    · rw [squashGo, if_neg h]
      have hg2 : GoodList (row :: rest) :=
        ⟨fun r hr => hg.1 r (List.mem_cons_of_mem _ hr),
          (List.pairwise_cons.1 hg.2).2⟩
      rw [covers_cons, squashGo_covers rest row hg2 c p x, ← covers_cons]

lemma squashSorted_covers {l : List AncestryRecord} (hg : GoodList l)
    (c p : Nat) (x : ℚ) :
    covers (squashSorted l) c p x ↔ covers l c p x := by
  cases l with
  | nil => exact Iff.rfl
  | cons row rest => exact squashGo_covers rest row hg c p x

lemma covers_perm {l lp : List AncestryRecord} (h : List.Perm l lp)
    (c p : Nat) (x : ℚ) : covers l c p x ↔ covers lp c p x := by
  unfold covers
  constructor <;> rintro ⟨r, hr, hrest⟩
  · exact ⟨r, h.mem_iff.1 hr, hrest⟩
  · exact ⟨r, h.mem_iff.2 hr, hrest⟩

/-- The input contract is stable under permuting the input records. -/
lemma validInput_perm {l lp : List AncestryRecord} (h : ValidInput l)
    (hp : List.Perm lp l) : ValidInput lp := by
  refine ⟨fun r hr => h.1 r (hp.mem_iff.1 hr), ?_⟩
  refine (hp.pairwise_iff ?_).2 h.2
  intro x y hxy hyx hov
  exact hxy hyx.symm ⟨hov.2, hov.1⟩

/-- On a contract-satisfying input the `(child, left)` sort keys are
pairwise distinct, so the sorted table is strictly sorted by the key. -/
lemma sortRecords_pairwise_lt {l : List AncestryRecord} (h : ValidInput l) :
    List.Pairwise recLT (sortRecords l) := by
  have hs : List.Pairwise recLE (sortRecords l) :=
    List.sorted_insertionSort recLE l
  have hperm : List.Perm (sortRecords l) l := List.perm_insertionSort recLE l
  have hkd : List.Pairwise (fun a b => ¬(a.child = b.child ∧ a.left = b.left))
      (sortRecords l) := by
    refine (hperm.pairwise_iff ?_).2 ?_
    · intro x y hxy hyx
      exact hxy ⟨hyx.1.symm, hyx.2.symm⟩
    · refine h.2.imp_of_mem ?_
      intro a b ha hb hab hkey
      have ha2 := h.1 a ha
      have hb2 := h.1 b hb
      refine hab hkey.1 ⟨?_, ?_⟩
      · rw [hkey.2]
        exact hb2
      · rw [← hkey.2]
        exact ha2
  refine (hs.and hkd).imp ?_
  rintro a b ⟨hle, hne⟩
  rcases hle with h1 | ⟨h1, h2⟩
  · exact Or.inl h1
  · exact Or.inr ⟨h1, lt_of_le_of_ne h2 fun e => hne ⟨h1, e⟩⟩

/-- C1: for every contract-satisfying input (per-child non-overlapping,
positive-length intervals), no two consecutive output segments for the same
child satisfy `right[i] = left[i+1]` together with
`population[i] = population[i+1]`: any such adjacent same-population pair
is merged into one segment, never reported as two. -/
theorem claim_C1_maximal_merge (l : List AncestryRecord) (_h : ValidInput l) :
    List.Chain' (fun a b => a.child = b.child →
      ¬(a.right = b.left ∧ a.population = b.population)) (squash l) := by
  refine (squash_chain l).imp ?_
  intro a b hnm hc hh
  exact hnm ⟨hh.1.symm, hh.2.symm, hc.symm⟩

/-- Witness for `claim_C1_maximal_merge` at the spec's Example 1 input. -/
theorem claim_C1_maximal_merge_witness :
    ValidInput [⟨0, 0, 5, 0⟩, ⟨0, 5, 10, 0⟩] ∧
      List.Chain' (fun a b => a.child = b.child →
        ¬(a.right = b.left ∧ a.population = b.population))
        (squash [⟨0, 0, 5, 0⟩, ⟨0, 5, 10, 0⟩]) :=
  ⟨by decide, claim_C1_maximal_merge _ (by decide)⟩

/-- C2 counterexample: on the spec's Example 4 input, whose two records for
child 0 overlap (`[0,5)` and `[3,8)`, same population), the code does not
fail and does not produce an empty result: the squash cell performs no
overlap validation and returns both records as output segments. -/
theorem claim_C2_counterexample :
    squash [⟨0, 0, 5, 0⟩, ⟨0, 3, 8, 0⟩] = [⟨0, 0, 5, 0⟩, ⟨0, 3, 8, 0⟩] ∧
      (squash [⟨0, 0, 5, 0⟩, ⟨0, 3, 8, 0⟩]).length = 2 := by
  decide

/-- C2 amended: the merger performs no overlap detection and has no error
path; on an input of two overlapping records for the same child it simply
returns both records (in sorted order) as output segments, with no error
and no repair. -/
theorem claim_C2_amended (c : Nat) (l1 r1 l2 r2 : ℚ) (p1 p2 : Nat)
    (h1 : l1 < l2) (h2 : l2 < r1) :
    squash [⟨c, l1, r1, p1⟩, ⟨c, l2, r2, p2⟩] =
      [⟨c, l1, r1, p1⟩, ⟨c, l2, r2, p2⟩] := by
  have hle : recLE ⟨c, l1, r1, p1⟩ ⟨c, l2, r2, p2⟩ := Or.inr ⟨rfl, le_of_lt h1⟩
  have hsort : sortRecords [⟨c, l1, r1, p1⟩, ⟨c, l2, r2, p2⟩] =
      [⟨c, l1, r1, p1⟩, ⟨c, l2, r2, p2⟩] := by
    unfold sortRecords
    simp [List.insertionSort, List.orderedInsert, hle]
  have hne : ¬(l2 = r1 ∧ p2 = p1 ∧ c = c) := fun hh => absurd hh.1 (ne_of_lt h2)
  unfold squash
  rw [hsort]
  show squashGo ⟨c, l1, r1, p1⟩ [⟨c, l2, r2, p2⟩] = _
  rw [squashGo, if_neg hne, squashGo]

/-- Witness for `claim_C2_amended` at the spec's Example 4 input. -/
theorem claim_C2_amended_witness :
    squash [⟨0, 0, 5, 0⟩, ⟨0, 3, 8, 0⟩] = [⟨0, 0, 5, 0⟩, ⟨0, 3, 8, 0⟩] :=
  claim_C2_amended 0 0 5 3 8 0 0 (by decide) (by decide)

/-- C3 counterexample: the cell is not free of side effects on its input:
`sort_values(..., inplace=True, ignore_index=True)` mutates the
`local_ancestry` table. On an unsorted input the table afterwards differs
from the input. -/
theorem claim_C3_counterexample :
    (runSquashCell [⟨1, 0, 1, 0⟩, ⟨0, 0, 1, 0⟩]).1 ≠
      [⟨1, 0, 1, 0⟩, ⟨0, 0, 1, 0⟩] := by
  decide

/-- C3 amended: the cell's only effect besides producing the output is
sorting the input table in place: afterwards the table is a permutation of
the input records, sorted by the `(child, left)` key, and the output table
is exactly the deterministic function `squash` of the input. -/
theorem claim_C3_amended (l : List AncestryRecord) :
    List.Perm (runSquashCell l).1 l ∧
      List.Pairwise recLE (runSquashCell l).1 ∧
      (runSquashCell l).2 = squash l :=
  ⟨List.perm_insertionSort recLE l, List.sorted_insertionSort recLE l, rfl⟩

/-- C4 counterexample: on an input consisting of one zero-length record the
code does not fail: the degenerate record is passed through unchanged. -/
theorem claim_C4_counterexample :
    squash [⟨0, 5, 5, 0⟩] = [⟨0, 5, 5, 0⟩] := by
  decide

/-- C4 amended: the merger performs no degenerate-interval validation and
has no error path; a lone zero-length record is passed through to the
output unchanged. -/
theorem claim_C4_amended (c : Nat) (x : ℚ) (p : Nat) :
    squash [⟨c, x, x, p⟩] = [⟨c, x, x, p⟩] :=
  rfl

/-- C5: for every contract-satisfying input, squashing preserves ancestry
coverage exactly: a point `x` of child `c` is reported as belonging to
population `p` by the output exactly when some input record reports it,
so per child the union of output intervals equals the union of input
intervals and every point keeps its population label. -/
theorem claim_C5_coverage_preserved (l : List AncestryRecord)
    (h : ValidInput l) (c p : Nat) (x : ℚ) :
    covers (squash l) c p x ↔ covers l c p x :=
  (squashSorted_covers (sortRecords_good h) c p x).trans
    (covers_perm (List.perm_insertionSort recLE l) c p x)

/-- Witness for `claim_C5_coverage_preserved` at the spec's Example 1 input
and the point 7 of child 0. -/
theorem claim_C5_coverage_preserved_witness :
    ValidInput [⟨0, 0, 5, 0⟩, ⟨0, 5, 10, 0⟩] ∧
      (covers (squash [⟨0, 0, 5, 0⟩, ⟨0, 5, 10, 0⟩]) 0 0 7 ↔
        covers [⟨0, 0, 5, 0⟩, ⟨0, 5, 10, 0⟩] 0 0 7) :=
  ⟨by decide, claim_C5_coverage_preserved _ (by decide) 0 0 7⟩

/-- C6: the merger is idempotent on every input: squashing the squashed
table again returns it unchanged. -/
theorem claim_C6_idempotent (l : List AncestryRecord) :
    squash (squash l) = squash l := by
  have hs : List.Pairwise recLE (squash l) := squash_pairwise_le l
  show squashSorted ((squash l).insertionSort recLE) = squash l
  rw [List.Sorted.insertionSort_eq hs]
  exact squashSorted_of_chain (squash_chain l)

/-- C7: for contract-satisfying inputs the merger is order independent:
permuting the input records yields the identical output (here literally
equal, which includes the documented sorted group ordering). -/
theorem claim_C7_order_independent (l lp : List AncestryRecord)
    (h : ValidInput l) (hp : List.Perm lp l) :
    squash lp = squash l := by
  have h2 : ValidInput lp := validInput_perm h hp
  have e : sortRecords lp = sortRecords l := by
    refine List.eq_of_perm_of_sorted ?_ (sortRecords_pairwise_lt h2)
      (sortRecords_pairwise_lt h)
    exact (List.perm_insertionSort recLE lp).trans
      (hp.trans (List.perm_insertionSort recLE l).symm)
  unfold squash
  rw [e]

/-- Witness for `claim_C7_order_independent`: swapping the two records of a
two-child input leaves the output unchanged. -/
theorem claim_C7_order_independent_witness :
    ValidInput [⟨0, 0, 5, 0⟩, ⟨1, 0, 5, 1⟩] ∧
      List.Perm ([⟨1, 0, 5, 1⟩, ⟨0, 0, 5, 0⟩] : List AncestryRecord)
        [⟨0, 0, 5, 0⟩, ⟨1, 0, 5, 1⟩] ∧
      squash [⟨1, 0, 5, 1⟩, ⟨0, 0, 5, 0⟩] = squash [⟨0, 0, 5, 0⟩, ⟨1, 0, 5, 1⟩] :=
  ⟨by decide, by decide,
    claim_C7_order_independent _ _ (by decide) (by decide)⟩

/-- C8: for every contract-satisfying input, any two output segments with
the same child are non-overlapping; the earlier one ends no later than the
later one begins and output segments of a child are strictly increasing by
`left` (so in particular `right[i] <= left[i+1]` for consecutive pairs of a
child group). -/
theorem claim_C8_output_disjoint_sorted (l : List AncestryRecord)
    (h : ValidInput l) :
    (squash l).Pairwise (fun a b => a.child = b.child →
      ¬ overlaps a b ∧ a.left < b.left ∧ a.right ≤ b.left) := by
  obtain ⟨hlen, hpw⟩ := squash_good h
  refine hpw.imp_of_mem ?_
  intro a b ha _ hab hc
  have h1 : a.right ≤ b.left := hab.2 hc
  have h2 : a.left < a.right := hlen a ha
  refine ⟨?_, h2.trans_le h1, h1⟩
  rintro ⟨-, hba⟩
  exact absurd (hba.trans_le h1) (lt_irrefl _)

/-- Witness for `claim_C8_output_disjoint_sorted` at the spec's Example 1
input. -/
theorem claim_C8_output_disjoint_sorted_witness :
    ValidInput [⟨0, 0, 5, 0⟩, ⟨0, 5, 10, 1⟩] ∧
      (squash [⟨0, 0, 5, 0⟩, ⟨0, 5, 10, 1⟩]).Pairwise
        (fun a b => a.child = b.child →
          ¬ overlaps a b ∧ a.left < b.left ∧ a.right ≤ b.left) :=
  ⟨by decide, claim_C8_output_disjoint_sorted _ (by decide)⟩

/-- C9: two touching records for the same child with different population
labels are kept as two adjacent, un-merged output segments, whichever
order they arrive in. -/
theorem claim_C9_touching_not_merged (c : Nat) (l m r : ℚ) (pA pB : Nat)
    (inp : List AncestryRecord)
    (hin : inp = [⟨c, l, m, pA⟩, ⟨c, m, r, pB⟩] ∨
      inp = [⟨c, m, r, pB⟩, ⟨c, l, m, pA⟩])
    (hlm : l < m) (hpop : pA ≠ pB) :
    squash inp = [⟨c, l, m, pA⟩, ⟨c, m, r, pB⟩] := by
  have hne : ¬(m = m ∧ pB = pA ∧ c = c) := fun hh => hpop hh.2.1.symm
  have hle : recLE ⟨c, l, m, pA⟩ ⟨c, m, r, pB⟩ := Or.inr ⟨rfl, le_of_lt hlm⟩
  have hnle : ¬ recLE (⟨c, m, r, pB⟩ : AncestryRecord) ⟨c, l, m, pA⟩ := by
    rintro (hh | ⟨-, hh⟩)
    · exact absurd hh (lt_irrefl _)
    · exact absurd hh (not_le.2 hlm)
  rcases hin with rfl | rfl
  · have hsort : sortRecords [⟨c, l, m, pA⟩, ⟨c, m, r, pB⟩] =
        [⟨c, l, m, pA⟩, ⟨c, m, r, pB⟩] := by
      unfold sortRecords
      simp [List.insertionSort, List.orderedInsert, hle]
    unfold squash
    rw [hsort]
    show squashGo ⟨c, l, m, pA⟩ [⟨c, m, r, pB⟩] = _
    rw [squashGo, if_neg hne, squashGo]
  · have hsort : sortRecords [⟨c, m, r, pB⟩, ⟨c, l, m, pA⟩] =
        [⟨c, l, m, pA⟩, ⟨c, m, r, pB⟩] := by
      unfold sortRecords
      simp [List.insertionSort, List.orderedInsert, hnle]
    unfold squash
    rw [hsort]
    show squashGo ⟨c, l, m, pA⟩ [⟨c, m, r, pB⟩] = _
    rw [squashGo, if_neg hne, squashGo]

/-- Witness for `claim_C9_touching_not_merged` at the spec's Example 2
input. -/
theorem claim_C9_touching_not_merged_witness :
    squash [⟨0, 0, 5, 0⟩, ⟨0, 5, 10, 1⟩] = [⟨0, 0, 5, 0⟩, ⟨0, 5, 10, 1⟩] :=
  claim_C9_touching_not_merged 0 0 5 10 0 1 _ (Or.inl rfl) (by decide)
    (by decide)

/-- C10: for every input, the output table is sorted by the lexicographic
`(child, left)` key, and in particular child groups appear in ascending
order of the child identifier. -/
theorem claim_C10_output_order (l : List AncestryRecord) :
    (squash l).Pairwise recLE ∧
      (squash l).Pairwise (fun a b => a.child ≤ b.child) := by
  have h := squash_pairwise_le l
  refine ⟨h, h.imp ?_⟩
  rintro a b (hab | ⟨hab, -⟩)
  · exact le_of_lt hab
  · exact le_of_eq hab

/-- The spec's Example 1: two touching same-population records for child 0
are merged into one segment. -/
theorem spec_example_one :
    squash [⟨0, 0, 5, 0⟩, ⟨0, 5, 10, 0⟩] = [⟨0, 0, 10, 0⟩] := by decide

/-- The spec's Example 3: records are grouped by child, the groups in
ascending child order. -/
theorem spec_example_three :
    squash [⟨1, 3, 4, 0⟩, ⟨0, 0, 2, 1⟩] = [⟨0, 0, 2, 1⟩, ⟨1, 3, 4, 0⟩] := by
  decide

/-- The spec's Example 5: empty input gives empty output. -/
theorem spec_example_five : squash [] = [] := by decide

end AncestrySquash
